import Mathlib

/-!
# Verification of the `clfs/m` password-breach client core

Shallow embedding of the repository's core components and proofs of the
specification claims about them:

* `ntlm` package (`src/unnamed/part_001`): the NTLM legacy hash — a
  streaming hasher that widens every input byte to the two bytes
  `b, 0x00` and feeds the result to an MD4 hasher.
* `pwnpass` package (`src/pwnpass/pwnpass.go`): prefix validation,
  range-query request construction, response parsing (`newBag`), and the
  two-family `IsPwnedPassword` orchestration.
* `hibp` package (`src/hibp/hibp.go`): the `newError` classifier and the
  `HashSuffixes` range query.

Bytes are modelled as `Nat` (values `< 256` where it matters), strings as
`List Char`, machine words as `Nat` reduced modulo `2^32` / `2^64`
explicitly, and fallible operations return `Except`/`Option`.
-/

namespace M

/-! ## MD4 (RFC 1320)

Modelled from the spec: the underlying compression hash of the legacy
hasher is MD4, supplied by the `golang.org/x/crypto/md4` library (not part
of this repository's sources).  The definitions below follow RFC 1320,
which that library implements: 512-bit blocks, little-endian word
encoding, three rounds of sixteen operations, 16-byte digest. -/

/-- Reduce modulo `2^32` (32-bit word arithmetic). -/
def w32 (n : Nat) : Nat := n % 4294967296

/-- Rotate a 32-bit word left by `s` bits. -/
def rotl (s n : Nat) : Nat := w32 (n * 2 ^ s) + n / 2 ^ (32 - s)

/-- MD4 round-1 function `F(x,y,z) = (x AND y) OR ((NOT x) AND z)`. -/
def md4F (x y z : Nat) : Nat := (x &&& y) ||| ((x ^^^ 4294967295) &&& z)

/-- MD4 round-2 function `G(x,y,z) = (x AND y) OR (x AND z) OR (y AND z)`. -/
def md4G (x y z : Nat) : Nat := (x &&& y) ||| (x &&& z) ||| (y &&& z)

/-- MD4 round-3 function `H(x,y,z) = x XOR y XOR z`. -/
def md4H (x y z : Nat) : Nat := x ^^^ y ^^^ z

/-- MD4 state: the four chaining words `(A, B, C, D)`. -/
abbrev Md4State := Nat × Nat × Nat × Nat

/-- One MD4 round: fold the round operation over the `(k, s)` schedule.
Each operation rewrites the first word of the rotating 4-tuple. -/
def md4Round (f : Nat → Nat → Nat → Nat) (cst : Nat) (X : List Nat)
    (st : Md4State) (ks : List (Nat × Nat)) : Md4State :=
  ks.foldl (fun st p =>
    let a := st.1
    let b := st.2.1
    let c := st.2.2.1
    let d := st.2.2.2
    (d, rotl p.2 (w32 (a + f b c d + X.getD p.1 0 + cst)), b, c)) st

/-- Round-1 message-word/shift schedule. -/
def md4KS1 : List (Nat × Nat) :=
  [(0,3),(1,7),(2,11),(3,19),(4,3),(5,7),(6,11),(7,19),
   (8,3),(9,7),(10,11),(11,19),(12,3),(13,7),(14,11),(15,19)]

/-- Round-2 message-word/shift schedule. -/
def md4KS2 : List (Nat × Nat) :=
  [(0,3),(4,5),(8,9),(12,13),(1,3),(5,5),(9,9),(13,13),
   (2,3),(6,5),(10,9),(14,13),(3,3),(7,5),(11,9),(15,13)]

/-- Round-3 message-word/shift schedule. -/
def md4KS3 : List (Nat × Nat) :=
  [(0,3),(8,9),(4,11),(12,15),(2,3),(10,9),(6,11),(14,15),
   (1,3),(9,9),(5,11),(13,15),(3,3),(11,9),(7,11),(15,15)]

/-- Decode a 64-byte block into sixteen little-endian 32-bit words. -/
def md4Words (blk : List Nat) : List Nat :=
  (List.range 16).map fun i =>
    blk.getD (4 * i) 0 + 256 * blk.getD (4 * i + 1) 0 +
    65536 * blk.getD (4 * i + 2) 0 + 16777216 * blk.getD (4 * i + 3) 0

/-- The MD4 compression function on one 64-byte block. -/
def md4Block (st : Md4State) (blk : List Nat) : Md4State :=
  let X := md4Words blk
  let st1 := md4Round md4F 0 X st md4KS1
  let st2 := md4Round md4G 1518500249 X st1 md4KS2
  let st3 := md4Round md4H 1859775393 X st2 md4KS3
  (w32 (st.1 + st3.1), w32 (st.2.1 + st3.2.1),
   w32 (st.2.2.1 + st3.2.2.1), w32 (st.2.2.2 + st3.2.2.2))

/-- Fold the compression function over consecutive 64-byte blocks.
`fuel` bounds the recursion; any `fuel ≥` the number of blocks is exact. -/
def md4Loop : Nat → Md4State → List Nat → Md4State
  | 0, st, _ => st
  | _, st, [] => st
  | fuel + 1, st, l => md4Loop fuel (md4Block st (l.take 64)) (l.drop 64)

/-- MD4 padding: append `0x80`, zeros to 56 mod 64, then the 64-bit
little-endian bit length. -/
def md4Pad (msg : List Nat) : List Nat :=
  let z := (119 - msg.length % 64) % 64
  let L := (8 * msg.length) % 18446744073709551616
  msg ++ [128] ++ List.replicate z 0 ++
    [L % 256, L / 256 % 256, L / 65536 % 256, L / 16777216 % 256,
     L / 4294967296 % 256, L / 1099511627776 % 256,
     L / 281474976710656 % 256, L / 72057594037927936 % 256]

/-- Serialize a 32-bit word to four little-endian bytes. -/
def wordLE (n : Nat) : List Nat :=
  [n % 256, n / 256 % 256, n / 65536 % 256, n / 16777216 % 256]

/-- The MD4 digest of a byte sequence: 16 bytes. -/
def md4Digest (msg : List Nat) : List Nat :=
  let p := md4Pad msg
  let st := md4Loop p.length (1732584193, 4023233417, 2562383102, 271733878) p
  wordLE st.1 ++ wordLE st.2.1 ++ wordLE st.2.2.1 ++ wordLE st.2.2.2

/-! ## The `hash.Hash` contract for the MD4 hasher

Modelled from the spec: the `ntlm` package wraps a `hash.Hash` produced by
`md4.New()` (library code, not in this repository).  Per the `hash.Hash` /
`io.Writer` contract the hasher accumulates all written bytes, `Write`
returns the number of bytes consumed from its argument together with a nil
error, and `Sum(b)` appends the digest of all accumulated bytes to `b`.
The state is therefore the accumulated byte sequence. -/

/-- Fresh MD4 hasher state: no bytes written yet (`md4.New()`). -/
def mdNew : List Nat := []

/-- `Write` on the MD4 hasher: accumulate the bytes, report the length of
the argument consumed, return a nil error. -/
def mdWrite (st p : List Nat) : List Nat × Nat × Option String :=
  (st ++ p, p.length, none)

/-- `Sum` on the MD4 hasher: append the digest of everything written so
far to the caller-supplied prefix `b`. -/
def mdSum (st b : List Nat) : List Nat :=
  b ++ md4Digest st

/-! ## The `ntlm` package (`src/unnamed/part_001`) -/

/-- State of the streaming NTLM hasher: `type ntlm struct { h hash.Hash }`. -/
structure Ntlm where
  h : List Nat
deriving Repr, DecidableEq

/-- `ntlm.New()`: a fresh NTLM hasher wrapping a fresh MD4 hasher. -/
def ntlmNew : Ntlm := ⟨mdNew⟩

/-- The buffer built by `ntlm.Write`'s loop: starting from an empty
buffer, append each input byte followed by a zero byte. -/
def ntlmExpand (p : List Nat) : List Nat :=
  p.foldl (fun buf b => buf ++ [b, 0]) []

/-- `ntlm.Write(p)`: expand `p` and hand the buffer to the MD4 hasher,
returning the MD4 hasher's count and error unchanged
(`return n.h.Write(buf)`). -/
def ntlmWrite (n : Ntlm) (p : List Nat) : Ntlm × Nat × Option String :=
  let buf := ntlmExpand p
  let r := mdWrite n.h buf
  (⟨r.1⟩, r.2.1, r.2.2)

/-- `ntlm.Sum(b)`: delegate to the MD4 hasher's `Sum`. -/
def ntlmSumMeth (n : Ntlm) (b : List Nat) : List Nat :=
  mdSum n.h b

/-- `ntlm.Reset()`: delegate to the MD4 hasher's `Reset`. -/
def ntlmReset (_ : Ntlm) : Ntlm := ⟨mdNew⟩

/-- Go `append` into a zero-length slice of the fixed array `arr`:
if the appended bytes fit within the array's capacity they overwrite the
array in place; otherwise a fresh backing array is allocated and `arr` is
left unchanged. -/
def goArraySum (arr buf : List Nat) : List Nat :=
  if buf.length ≤ arr.length then buf ++ arr.drop buf.length else arr

/-- One-shot `ntlm.Sum(data)`: declare a zero 16-byte array `h`, create a
fresh hasher, write `data`, then `hh.Sum(h[:0])` and return `h`. -/
def ntlmSum (data : List Nat) : List Nat :=
  let hh := ntlmNew
  let hh := (ntlmWrite hh data).1
  goArraySum (List.replicate 16 0) (ntlmSumMeth hh [])

/-- The expansion described by the specification: every byte `b` of the
input is replaced by the two bytes `b, 0x00` in that order. -/
def specExpand (s : List Nat) : List Nat :=
  s.flatMap fun b => [b, 0]

/-- The byte values of the test sentence
`His money is twice tainted: (')taint yours and (')taint mine.`
from the golden vectors in `src/ntlm/ntlm_test.go`. -/
def goldenSentence : List Nat :=
  [72, 105, 115, 32, 109, 111, 110, 101, 121, 32, 105, 115, 32, 116,
   119, 105, 99, 101, 32, 116, 97, 105, 110, 116, 101, 100, 58, 32, 39,
   116, 97, 105, 110, 116, 32, 121, 111, 117, 114, 115, 32, 97, 110,
   100, 32, 39, 116, 97, 105, 110, 116, 32, 109, 105, 110, 101, 46]

/-! ## Strings, `strings.Cut`, and `strconv.Atoi`

Strings are modelled as `List Char` (all strings the core manipulates are
ASCII, one byte per character). -/

/-- Strings in the model. -/
abbrev Str := List Char

/-- `strings.Cut(line, colon)`: split at the first colon, returning the
parts before and after it, or nothing when the line has no colon. -/
def goCut : Str → Option (Str × Str)
  | [] => none
  | c :: rest =>
    if c = ':' then some ([], rest)
    else
      match goCut rest with
      | none => none
      | some p => some (c :: p.1, p.2)

/-- Accumulating decimal scan behind `strconv.Atoi` (modelled from the
spec of Go's `strconv`, library code): consume decimal digits,
failing on the first non-digit. -/
def digitsValAux : Nat → Str → Option Nat
  | n, [] => some n
  | n, c :: rest =>
    if c.isDigit then digitsValAux (10 * n + (c.toNat - 48)) rest else none

/-- Value of a nonempty all-digit string; `none` otherwise. -/
def digitsVal (l : Str) : Option Nat :=
  if l = [] then none else digitsValAux 0 l

/-- The signed-64-bit range check of `strconv.Atoi`: out-of-range values
are a range error, modelled as `none`. -/
def atoiRange (v : Int) : Option Int :=
  if -9223372036854775808 ≤ v ∧ v ≤ 9223372036854775807 then some v
  else none

/-- `strconv.Atoi` (modelled from the spec of Go's `strconv`): an
optional sign followed by a nonempty run of decimal digits, with the
value required to fit in a signed 64-bit integer; every other string
(or an out-of-range value) is an error, modelled as `none`. -/
def goAtoi (s : Str) : Option Int :=
  match s with
  | '-' :: rest =>
    match digitsVal rest with
    | none => none
    | some n => atoiRange (-(n : Int))
  | '+' :: rest =>
    match digitsVal rest with
    | none => none
    | some n => atoiRange (n : Int)
  | other =>
    match digitsVal other with
    | none => none
    | some n => atoiRange (n : Int)

/-! ## The `pwnpass` response parser (`newBag`) -/

/-- Error values produced by the `pwnpass` client.  `malformed` carries
the offending line of `fmt.Errorf("malformed response: %q", line)`;
`badStatus` the code of `fmt.Errorf("unexpected status code: %d", ...)`;
`transport` stands for an error returned by the HTTP client's `Do`;
`invalidPfx` is `ErrInvalidPrefix`. -/
inductive SearchErr where
  | invalidPfx
  | badStatus (code : Int)
  | transport (code : Nat)
  | malformed (line : Str)
deriving DecidableEq, Repr

/-- A Go `map[string]int`: association list with unique keys. -/
abbrev Bag := List (Str × Int)

/-- Go map assignment `m[k] = v`: overwrite the existing binding of `k`
in place, or append a fresh one. -/
def bagInsert (m : Bag) (k : Str) (v : Int) : Bag :=
  match m with
  | [] => [(k, v)]
  | e :: rest => if e.1 = k then (k, v) :: rest else e :: bagInsert rest k v

/-- Go map lookup `m[k]`. -/
def bagFind (m : Bag) (k : Str) : Option Int :=
  match m with
  | [] => none
  | e :: rest => if e.1 = k then some e.2 else bagFind rest k

/-- The scanning loop of `newBag`, over the already-scanned lines: split
each line at the first colon (no colon is malformed), parse the count
with `Atoi` (failure is malformed), reject negative counts, skip
zero-count padding lines, otherwise assign into the map. -/
def newBagLoop (m : Bag) : List Str → Except SearchErr Bag
  | [] => .ok m
  | line :: rest =>
    match goCut line with
    | none => .error (.malformed line)
    | some p =>
      match goAtoi p.2 with
      | none => .error (.malformed line)
      | some n =>
        if n < 0 then .error (.malformed line)
        else if n = 0 then newBagLoop m rest
        else newBagLoop (bagInsert m p.1 n) rest

/-- `newBag`: parse a range-query response body.  The body is given as
the sequence of lines produced by the `bufio.Scanner` (the scanner
itself, which strips line terminators, is not modelled; an in-memory
reader never yields a scanner error). -/
def newBag (lines : List Str) : Except SearchErr Bag :=
  newBagLoop [] lines

/-! ## Specification-side predicates for the parser claims -/

/-- Spec-side value of a decimal digit string. -/
def decValue (l : Str) : Nat :=
  l.foldl (fun a c => 10 * a + (c.toNat - 48)) 0

/-- Spec side: the line has the form `SUFFIX:COUNT` with `COUNT` a
non-negative base-10 integer (a nonempty digit string), `SUFFIX` being
the part before the first colon. -/
def specGoodLine (line : Str) : Prop :=
  ∃ suffix count, line = suffix ++ ':' :: count ∧ ':' ∉ suffix ∧
    count ≠ [] ∧ ∀ c ∈ count, c.isDigit

/-- Spec side, amended: additionally the count fits in a signed 64-bit
integer (`strconv.Atoi` fails with a range error above `2^63 - 1`). -/
def specGoodLine64 (line : Str) : Prop :=
  ∃ suffix count, line = suffix ++ ':' :: count ∧ ':' ∉ suffix ∧
    count ≠ [] ∧ (∀ c ∈ count, c.isDigit) ∧
    decValue count ≤ 9223372036854775807

/-- Spec side: the string is an optionally-signed nonempty decimal
numeral. -/
def specIsIntStr (s : Str) : Prop :=
  ∃ sgn ds, (sgn = [] ∨ sgn = ['+'] ∨ sgn = ['-']) ∧ s = sgn ++ ds ∧
    ds ≠ [] ∧ ∀ c ∈ ds, c.isDigit

/-- Spec-side value of an optionally-signed decimal numeral. -/
def specIntValue : Str → Int
  | [] => 0
  | c :: rest =>
    if c = '-' then -(decValue rest : Int)
    else if c = '+' then (decValue rest : Int)
    else (decValue (c :: rest) : Int)

/-- Spec side: a malformed line — lacking a colon, or with a
non-integer count, or with a negative count. -/
def specBadLine (line : Str) : Prop :=
  ':' ∉ line ∨
  ∃ suffix count, line = suffix ++ ':' :: count ∧ ':' ∉ suffix ∧
    (¬ specIsIntStr count ∨ specIntValue count < 0)

/-- The positive entries of well-formed lines, in stream order. -/
def specEntries (lines : List Str) : List (Str × Int) :=
  lines.filterMap fun line =>
    match goCut line with
    | some p =>
      match digitsVal p.2 with
      | some n => if 0 < n then some (p.1, (n : Int)) else none
      | none => none
    | none => none

/-- Last-write-wins lookup in a list of entries. -/
def lastAssoc (l : List (Str × Int)) (s : Str) : Option Int :=
  l.foldl (fun acc e => if e.1 = s then some e.2 else acc) none

/-! ## Hex encoding (`encoding/hex`)

Modelled from the spec: Go's `hex.EncodeToString` (library code) encodes
each byte as two lowercase hex digits, high nibble first, indexing the
table `0123456789abcdef`. -/

/-- The `encoding/hex` digit table (`const hextable`). -/
def hexTable : List Char :=
  "0123456789abcdef".toList

/-- `hex.EncodeToString`: two lowercase hex digits per byte. -/
def hexEncode (bs : List Nat) : List Char :=
  bs.flatMap fun b => [hexTable.getD (b / 16) '0', hexTable.getD (b % 16) '0']

/-! ## The `pwnpass` range query (`Client.search`) -/

/-- One character of the regular expression class `[0-9A-Fa-f]`. -/
def isHexDigit (c : Char) : Bool :=
  ('0' ≤ c && c ≤ '9') || ('A' ≤ c && c ≤ 'F') || ('a' ≤ c && c ≤ 'f')

/-- `isValidPrefix.MatchString`: the anchored regular expression
`[0-9A-Fa-f]` repeated exactly five times. -/
def isValidPfx (p : Str) : Bool :=
  p.length = 5 && p.all isHexDigit

/-- An outbound HTTP request: method, URL, and headers in the order they
are set. -/
structure GoRequest where
  method : Str
  url : Str
  headers : List (Str × Str)
deriving DecidableEq, Repr

/-- An HTTP response: status code, headers, and the body as the sequence
of lines the scanner produces from it. -/
structure GoResponse where
  statusCode : Int
  headers : List (Str × Str)
  body : List Str
deriving DecidableEq, Repr

/-- The HTTP transport (`http.Client.Do`): either a transport error
(opaque code) or a response.  The clients are verified for every
transport. -/
abbrev Transport := GoRequest → Except Nat GoResponse

/-- `http.Header.Get`: the first value of the header, or the empty string
when the header is absent. -/
def headerGet : List (Str × Str) → Str → Str
  | [], _ => []
  | e :: rest, k => if e.1 = k then e.2 else headerGet rest k

/-- The request built by `Client.search`: `GET <base>/range/<prefix>`,
with `?mode=ntlm` appended when the NTLM family is selected, and the
`Add-Padding: true` header always set. -/
def buildSearchRequest (base pfx : Str) (ntlmMode : Bool) : GoRequest :=
  { method := "GET".toList
    url := base ++ "/range/".toList ++ pfx ++
      (if ntlmMode then "?mode=ntlm".toList else [])
    headers := [("Add-Padding".toList, "true".toList)] }

/-- The body of `Client.search` after prefix validation: issue the
request, propagate transport errors, reject non-200 statuses with
`fmt.Errorf("unexpected status code: %d", ...)`, and hand the body to
`newBag`. -/
def searchNet (t : Transport) (base pfx : Str) (ntlmMode : Bool) :
    Except SearchErr Bag :=
  match t (buildSearchRequest base pfx ntlmMode) with
  | .error e => .error (.transport e)
  | .ok resp =>
    if resp.statusCode ≠ 200 then .error (.badStatus resp.statusCode)
    else newBag resp.body

/-- `Client.search`: reject prefixes that fail the regular expression
with `ErrInvalidPrefix` before anything else; otherwise proceed to the
network. -/
def search (t : Transport) (base pfx : Str) (ntlmMode : Bool) :
    Except SearchErr Bag :=
  if !isValidPfx pfx then .error .invalidPfx
  else searchNet t base pfx ntlmMode

/-- `Client.SearchSHA1`. -/
def searchSHA1 (t : Transport) (base pfx : Str) : Except SearchErr Bag :=
  search t base pfx false

/-- `Client.SearchNTLM`. -/
def searchNTLM (t : Transport) (base pfx : Str) : Except SearchErr Bag :=
  search t base pfx true

/-! ## The `hibp` package: `newError` and `HashSuffixes` -/

/-- `hibp.Error`: status code and optional retry delay (`RetryAfter`
is a `*time.Duration`, `nil` when absent; the delay is in nanoseconds,
`time.Duration`'s unit). -/
structure HibpError where
  statusCode : Int
  retryAfter : Option Int
deriving DecidableEq, Repr

/-- Errors out of `hibp.Client.HashSuffixes`: a classified non-success
response, a transport error, or a malformed body line
(`fmt.Errorf("invalid line: %q", line)`). -/
inductive HibpErr where
  | request (e : HibpError)
  | transport (code : Nat)
  | invalidLine (line : Str)
deriving DecidableEq, Repr

/-- Wrap into the signed 64-bit range (Go `int64` multiplication
overflow semantics for `time.Duration`). -/
def intWrap64 (v : Int) : Int :=
  (v + 9223372036854775808) % 18446744073709551616 - 9223372036854775808

/-- `hibp.newError`: always an error value carrying the response's
status code; the retry delay is set to `Duration(n) * Second` exactly
when `strconv.Atoi` succeeds (any integer, negative included) on the
`Retry-After` header, and left nil otherwise. -/
def newError (resp : GoResponse) : HibpError :=
  match goAtoi (headerGet resp.headers "Retry-After".toList) with
  | some n =>
    { statusCode := resp.statusCode
      retryAfter := some (intWrap64 (n * 1000000000)) }
  | none => { statusCode := resp.statusCode, retryAfter := none }

/-- `hibp.HashSuffixesRequest`: prefix, hash type (`HashTypeSHA1 = 0`,
`HashTypeNTLM = 1`), padding flag. -/
structure HashSuffixesRequest where
  pfx : Str
  hashType : Nat
  addPadding : Bool
deriving DecidableEq, Repr

/-- The request built by `hibp.Client.HashSuffixes`:
`GET <ppBase>/range/<prefix>` with the client's `User-Agent` header and,
when padding is requested, `Add-Padding: true`.  The hash type of the
request is not consulted. -/
def hibpRequestOf (ppBase ua : Str) (req : HashSuffixesRequest) :
    GoRequest :=
  { method := "GET".toList
    url := ppBase ++ "/range/".toList ++ req.pfx
    headers := [("User-Agent".toList, ua)] ++
      (if req.addPadding then [("Add-Padding".toList, "true".toList)]
       else []) }

/-- The scanning loop of `hibp.parseSuffixFrequencies` (same algorithm
as `newBag`, different error values). -/
def hibpParseLoop (m : Bag) : List Str → Except HibpErr Bag
  | [] => .ok m
  | line :: rest =>
    match goCut line with
    | none => .error (.invalidLine line)
    | some p =>
      match goAtoi p.2 with
      | none => .error (.invalidLine line)
      | some n =>
        if n < 0 then .error (.invalidLine line)
        else if n = 0 then hibpParseLoop m rest
        else hibpParseLoop (bagInsert m p.1 n) rest

/-- `hibp.parseSuffixFrequencies`. -/
def hibpParseSuffixes (lines : List Str) : Except HibpErr Bag :=
  hibpParseLoop [] lines

/-- `hibp.Client.HashSuffixes`: build the request (no validation of any
kind on the prefix), issue it, parse 200 responses, classify everything
else through `newError`. -/
def hibpHashSuffixes (t : Transport) (ppBase ua : Str)
    (req : HashSuffixesRequest) : Except HibpErr Bag :=
  match t (hibpRequestOf ppBase ua req) with
  | .error e => .error (.transport e)
  | .ok resp =>
    if resp.statusCode = 200 then hibpParseSuffixes resp.body
    else .error (.request (newError resp))

/-! ## `IsPwnedPassword` (`pwnpass`) -/

/-- `strings.ToUpper` on ASCII text: map lowercase letters to uppercase,
leave everything else unchanged. -/
def asciiUpper (s : Str) : Str :=
  s.map fun c => if 'a' ≤ c && c ≤ 'z' then Char.ofNat (c.toNat - 32) else c

/-- `pwnpass.Client.IsPwnedPassword`, parametric in the general-purpose
hash (`crypto/sha1`, library code, treated as an arbitrary function) and
the transport: hash, uppercase-hex, split 5/rest, `SearchSHA1`;
propagate errors; on a suffix hit answer true; otherwise NTLM-hash the
same input and repeat with `SearchNTLM`. -/
def isPwnedPassword (sha1Fn : List Nat → List Nat) (t : Transport)
    (base : Str) (s : List Nat) : Except SearchErr Bool :=
  let sha1Hex := asciiUpper (hexEncode (sha1Fn s))
  match searchSHA1 t base (sha1Hex.take 5) with
  | .error e => .error e
  | .ok bag =>
    if (bagFind bag (sha1Hex.drop 5)).isSome then .ok true
    else
      let ntlmHex := asciiUpper (hexEncode (ntlmSum s))
      match searchNTLM t base (ntlmHex.take 5) with
      | .error e => .error e
      | .ok bag2 =>
        if (bagFind bag2 (ntlmHex.drop 5)).isSome then .ok true
        else .ok false

/-- The reference algorithm of the specification for `IsPwnedPassword`,
stated from the claim's words: (1) SHA-1 hash, uppercase hex, first-5 /
remainder split; (2) query the range service (which the request reaches
directly: the reference algorithm performs no local prefix check) with
the SHA-1 family and padding enabled, propagating query errors
immediately; (3) a suffix hit answers true without a second query;
(4) otherwise the NTLM hash of the same input, uppercase hex, split,
queried with the legacy family; (5) true exactly when a suffix is
found. -/
def specIsPwned (sha1Fn : List Nat → List Nat) (t : Transport)
    (base : Str) (s : List Nat) : Except SearchErr Bool :=
  let sha1Hex := asciiUpper (hexEncode (sha1Fn s))
  match searchNet t base (sha1Hex.take 5) false with
  | .error e => .error e
  | .ok bag =>
    if (bagFind bag (sha1Hex.drop 5)).isSome then .ok true
    else
      let ntlmHex := asciiUpper (hexEncode (ntlmSum s))
      match searchNet t base (ntlmHex.take 5) true with
      | .error e => .error e
      | .ok bag2 =>
        if (bagFind bag2 (ntlmHex.drop 5)).isSome then .ok true
        else .ok false

/-! ## Lemmas about the ntlm hasher -/

theorem ntlmExpand_go (p acc : List Nat) :
    p.foldl (fun buf b => buf ++ [b, 0]) acc = acc ++ specExpand p := by
  induction p generalizing acc with
  | nil => simp [specExpand]
  | cons b p ih => simp [List.foldl, ih, specExpand]

theorem ntlmExpand_eq (p : List Nat) : ntlmExpand p = specExpand p := by
  simpa using ntlmExpand_go p []

theorem ntlmExpand_append (a b : List Nat) :
    ntlmExpand (a ++ b) = ntlmExpand a ++ ntlmExpand b := by
  simp [ntlmExpand_eq, specExpand]

theorem ntlmExpand_length (p : List Nat) :
    (ntlmExpand p).length = 2 * p.length := by
  induction p with
  | nil => rfl
  | cons b p ih =>
    simp [ntlmExpand_eq, specExpand] at ih ⊢
    omega

theorem md4Digest_length (m : List Nat) : (md4Digest m).length = 16 := by
  simp [md4Digest, wordLE]

theorem ntlmSum_eq_streaming (data : List Nat) :
    ntlmSum data = md4Digest (ntlmExpand data) := by
  have h := md4Digest_length (ntlmExpand data)
  simp [ntlmSum, ntlmWrite, mdWrite, ntlmSumMeth, mdSum, ntlmNew, mdNew,
    goArraySum, h]

/-! ## Lemmas about the parser -/

theorem goCut_of_no_colon (line : Str) (h : ':' ∉ line) : goCut line = none := by
  induction line with
  | nil => rfl
  | cons c rest ih =>
    simp only [List.mem_cons, not_or] at h
    simp [goCut, Ne.symm h.1, ih h.2]

theorem goCut_split (suffix count : Str) (h : ':' ∉ suffix) :
    goCut (suffix ++ ':' :: count) = some (suffix, count) := by
  induction suffix with
  | nil => simp [goCut]
  | cons c rest ih =>
    simp only [List.mem_cons, not_or] at h
    simp [goCut, Ne.symm h.1, ih h.2]

theorem digitsValAux_of_digits (l : Str) (h : ∀ c ∈ l, c.isDigit) (n : Nat) :
    digitsValAux n l = some (l.foldl (fun a c => 10 * a + (c.toNat - 48)) n) := by
  induction l generalizing n with
  | nil => rfl
  | cons c rest ih =>
    have hc : c.isDigit := h c (by simp)
    simp [digitsValAux, hc, ih fun x hx => h x (by simp [hx])]

theorem digitsVal_of_digits (l : Str) (hne : l ≠ [])
    (h : ∀ c ∈ l, c.isDigit) : digitsVal l = some (decValue l) := by
  simp [digitsVal, hne, digitsValAux_of_digits l h 0, decValue]

theorem digitsValAux_some_digits (l : Str) :
    ∀ n m, digitsValAux n l = some m → ∀ c ∈ l, c.isDigit := by
  induction l with
  | nil => simp
  | cons c rest ih =>
    intro n m hm
    by_cases hc : c.isDigit
    · simp only [digitsValAux, if_pos hc] at hm
      intro x hx
      rcases List.mem_cons.1 hx with h | h
      · exact h ▸ hc
      · exact ih _ _ hm x h
    · simp [digitsValAux, hc] at hm

theorem digitsVal_some_digits (l : Str) (m : Nat) (h : digitsVal l = some m) :
    l ≠ [] ∧ ∀ c ∈ l, c.isDigit := by
  by_cases hne : l = []
  · simp [digitsVal, hne] at h
  · exact ⟨hne, by
      simp only [digitsVal, hne, if_neg] at h
      exact digitsValAux_some_digits l 0 m (by simpa using h)⟩

theorem isDigit_ne_signs (c : Char) (h : c.isDigit) : c ≠ '-' ∧ c ≠ '+' := by
  constructor <;> rintro rfl <;> simp [Char.isDigit] at h

theorem goAtoi_of_digits (count : Str) (hne : count ≠ [])
    (h : ∀ c ∈ count, c.isDigit)
    (hle : decValue count ≤ 9223372036854775807) :
    goAtoi count = some ((decValue count : Int)) := by
  have h1 : ((decValue count : Int)) ≤ 9223372036854775807 := by
    exact_mod_cast hle
  cases count with
  | nil => exact absurd rfl hne
  | cons c rest =>
    have hc := isDigit_ne_signs c (h c (by simp))
    have hdv := digitsVal_of_digits (c :: rest) (by simp) h
    unfold goAtoi
    split
    · rename_i heq
      injection heq with h2 _
      exact absurd h2 hc.1
    · rename_i heq
      injection heq with h2 _
      exact absurd h2 hc.2
    · rw [hdv]
      show atoiRange ((decValue (c :: rest) : Int)) = _
      unfold atoiRange
      rw [if_pos ⟨by omega, h1⟩]

theorem goAtoi_some_isIntStr (s : Str) (v : Int) (h : goAtoi s = some v) :
    specIsIntStr s := by
  unfold goAtoi at h
  split at h
  · rename_i rest
    cases hdv : digitsVal rest with
    | none => rw [hdv] at h; exact absurd h (by simp)
    | some n =>
      obtain ⟨hne, hdig⟩ := digitsVal_some_digits rest n hdv
      exact ⟨['-'], rest, by simp, rfl, hne, hdig⟩
  · rename_i rest
    cases hdv : digitsVal rest with
    | none => rw [hdv] at h; exact absurd h (by simp)
    | some n =>
      obtain ⟨hne, hdig⟩ := digitsVal_some_digits rest n hdv
      exact ⟨['+'], rest, by simp, rfl, hne, hdig⟩
  · cases hdv : digitsVal s with
    | none => rw [hdv] at h; exact absurd h (by simp)
    | some n =>
      obtain ⟨hne, hdig⟩ := digitsVal_some_digits s n hdv
      exact ⟨[], s, by simp, by simp, hne, hdig⟩

theorem atoiRange_some (v w : Int) (h : atoiRange v = some w) : w = v := by
  unfold atoiRange at h
  split at h
  · exact (Option.some.injEq .. ▸ h).symm
  · exact absurd h (by simp)

theorem digitsVal_eq_decValue (l : Str) (n : Nat) (h : digitsVal l = some n) :
    n = decValue l := by
  obtain ⟨hne, hdig⟩ := digitsVal_some_digits l n h
  rw [digitsVal_of_digits l hne hdig] at h
  exact (Option.some.injEq .. ▸ h).symm

theorem goAtoi_eq_specIntValue (s : Str) (v : Int) (h : goAtoi s = some v) :
    v = specIntValue s := by
  unfold goAtoi at h
  split at h
  · rename_i rest
    cases hdv : digitsVal rest with
    | none => rw [hdv] at h; exact absurd h (by simp)
    | some n =>
      rw [hdv] at h
      rw [atoiRange_some _ _ h, digitsVal_eq_decValue rest n hdv]
      simp [specIntValue]
  · rename_i rest
    cases hdv : digitsVal rest with
    | none => rw [hdv] at h; exact absurd h (by simp)
    | some n =>
      rw [hdv] at h
      rw [atoiRange_some _ _ h, digitsVal_eq_decValue rest n hdv]
      simp [specIntValue]
  · rename_i hm hp
    cases hdv : digitsVal s with
    | none => rw [hdv] at h; exact absurd h (by simp)
    | some n =>
      rw [hdv] at h
      rw [atoiRange_some _ _ h, digitsVal_eq_decValue s n hdv]
      cases s with
      | nil => simp [digitsVal] at hdv
      | cons c rest =>
        have hc1 : c ≠ '-' := fun hc => hm rest (by rw [hc])
        have hc2 : c ≠ '+' := fun hc => hp rest (by rw [hc])
        simp [specIntValue, hc1, hc2]

theorem bagFind_insert (m : Bag) (k : Str) (v : Int) (s : Str) :
    bagFind (bagInsert m k v) s = if k = s then some v else bagFind m s := by
  induction m with
  | nil => by_cases h : k = s <;> simp [bagInsert, bagFind, h]
  | cons e rest ih =>
    by_cases h1 : e.1 = k
    · have hins : bagInsert (e :: rest) k v = (k, v) :: rest := by
        simp [bagInsert, h1]
      rw [hins]
      by_cases h2 : k = s
      · simp [bagFind, h2]
      · have h3 : ¬ e.1 = s := by rw [h1]; exact h2
        simp [bagFind, h2, h3]
    · have hins : bagInsert (e :: rest) k v = e :: bagInsert rest k v := by
        simp [bagInsert, h1]
      rw [hins]
      by_cases h2 : e.1 = s
      · have hks : ¬ k = s := fun hk => h1 (by rw [h2, hk])
        simp [bagFind, h2, hks]
      · simp [bagFind, h2, ih]

theorem lastAssoc_go (es : List (Str × Int)) (s : Str) :
    ∀ init : Option Int,
      es.foldl (fun acc e => if e.1 = s then some e.2 else acc) init =
        match lastAssoc es s with
        | some v => some v
        | none => init := by
  induction es with
  | nil => intro init; simp [lastAssoc]
  | cons e rest ih =>
    intro init
    show rest.foldl _ (if e.1 = s then some e.2 else init) = _
    rw [ih]
    have hcons : lastAssoc (e :: rest) s =
        match lastAssoc rest s with
        | some v => some v
        | none => if e.1 = s then some e.2 else none := by
      show rest.foldl _ (if e.1 = s then some e.2 else none) = _
      rw [ih]
    rw [hcons]
    cases lastAssoc rest s with
    | some v => rfl
    | none => by_cases hs : e.1 = s <;> simp [hs]

theorem lastAssoc_cons (e : Str × Int) (es : List (Str × Int)) (s : Str) :
    lastAssoc (e :: es) s =
      match lastAssoc es s with
      | some v => some v
      | none => if e.1 = s then some e.2 else none := by
  show es.foldl _ (if e.1 = s then some e.2 else none) = _
  rw [lastAssoc_go]

theorem newBagLoop_good (lines : List Str) : ∀ m : Bag,
    (∀ l ∈ lines, specGoodLine64 l) →
    ∃ b, newBagLoop m lines = .ok b ∧
      ∀ s, bagFind b s =
        match lastAssoc (specEntries lines) s with
        | some v => some v
        | none => bagFind m s := by
  induction lines with
  | nil =>
    intro m _
    exact ⟨m, rfl, fun s => by simp [specEntries, lastAssoc]⟩
  | cons line rest ih =>
    intro m hall
    obtain ⟨suffix, count, heq, hnc, hne, hdig, hle⟩ := hall line (by simp)
    subst heq
    have hcut := goCut_split suffix count hnc
    have hatoi := goAtoi_of_digits count hne hdig hle
    have hdv := digitsVal_of_digits count hne hdig
    have hrest : ∀ l ∈ rest, specGoodLine64 l := fun l hl => hall l (by simp [hl])
    by_cases h0 : decValue count = 0
    · obtain ⟨b, hb, hfind⟩ := ih m hrest
      refine ⟨b, ?_, ?_⟩
      · simp only [newBagLoop, hcut, hatoi]
        rw [if_neg (by omega), if_pos (by exact_mod_cast h0)]
        exact hb
      · intro s
        rw [hfind s]
        simp [specEntries, hcut, hdv, h0]
    · have hpos : 0 < decValue count := Nat.pos_of_ne_zero h0
      obtain ⟨b, hb, hfind⟩ :=
        ih (bagInsert m suffix ((decValue count : Int))) hrest
      refine ⟨b, ?_, ?_⟩
      · simp only [newBagLoop, hcut, hatoi]
        rw [if_neg (by omega), if_neg (by exact_mod_cast h0)]
        exact hb
      · intro s
        rw [hfind s]
        simp only [bagFind_insert]
        have hents : specEntries ((suffix ++ ':' :: count) :: rest) =
            (suffix, (decValue count : Int)) :: specEntries rest := by
          simp [specEntries, hcut, hdv, hpos]
        rw [hents, lastAssoc_cons]
        cases lastAssoc (specEntries rest) s with
        | some v => rfl
        | none => by_cases hs : suffix = s <;> simp [hs]

theorem newBagLoop_bad (lines : List Str) : ∀ m : Bag,
    (∃ l ∈ lines, specBadLine l) →
    ∃ l, newBagLoop m lines = .error (.malformed l) := by
  induction lines with
  | nil => rintro m ⟨l, hl, _⟩; simp at hl
  | cons line rest ih =>
    intro m hex
    by_cases hbad : specBadLine line
    · rcases hbad with hnc | ⟨suffix, count, heq, hsuf, hcase⟩
      · exact ⟨line, by simp [newBagLoop, goCut_of_no_colon line hnc]⟩
      · subst heq
        have hcut := goCut_split suffix count hsuf
        cases hg : goAtoi count with
        | none =>
          exact ⟨suffix ++ ':' :: count, by simp [newBagLoop, hcut, hg]⟩
        | some v =>
          rcases hcase with hnint | hneg
          · exact absurd (goAtoi_some_isIntStr count v hg) hnint
          · have hv : v < 0 := goAtoi_eq_specIntValue count v hg ▸ hneg
            exact ⟨suffix ++ ':' :: count,
              by simp [newBagLoop, hcut, hg, hv]⟩
    · obtain ⟨l, hl, hbadl⟩ := hex
      rcases List.mem_cons.1 hl with rfl | hl'
      · exact absurd hbadl hbad
      · have hexr : ∃ x ∈ rest, specBadLine x := ⟨l, hl', hbadl⟩
        cases hcut : goCut line with
        | none => exact ⟨line, by simp [newBagLoop, hcut]⟩
        | some p =>
          cases hatoi : goAtoi p.2 with
          | none => exact ⟨line, by simp [newBagLoop, hcut, hatoi]⟩
          | some n =>
            by_cases hn0 : n < 0
            · exact ⟨line, by simp [newBagLoop, hcut, hatoi, hn0]⟩
            · by_cases hz : n = 0
              · obtain ⟨l', hl''⟩ := ih m hexr
                exact ⟨l', by simp [newBagLoop, hcut, hatoi, hn0, hz, hl'']⟩
              · obtain ⟨l', hl''⟩ := ih (bagInsert m p.1 n) hexr
                exact ⟨l', by simp [newBagLoop, hcut, hatoi, hn0, hz, hl'']⟩

/-! ## Lemmas about the range query and hex encoding -/

theorem newBagLoop_error_malformed (lines : List Str) : ∀ (m : Bag)
    (e : SearchErr), newBagLoop m lines = .error e → ∃ l, e = .malformed l := by
  induction lines with
  | nil => intro m e h; exact absurd h (by simp [newBagLoop])
  | cons line rest ih =>
    intro m e h
    cases hcut : goCut line with
    | none =>
      simp only [newBagLoop, hcut] at h
      injection h with h'
      exact ⟨line, h'.symm⟩
    | some p =>
      cases hatoi : goAtoi p.2 with
      | none =>
        simp only [newBagLoop, hcut, hatoi] at h
        injection h with h'
        exact ⟨line, h'.symm⟩
      | some n =>
        by_cases hneg : n < 0
        · simp only [newBagLoop, hcut, hatoi, if_pos hneg] at h
          injection h with h'
          exact ⟨line, h'.symm⟩
        · by_cases hz : n = 0
          · simp only [newBagLoop, hcut, hatoi, if_neg hneg, if_pos hz] at h
            exact ih m e h
          · simp only [newBagLoop, hcut, hatoi, if_neg hneg, if_neg hz] at h
            exact ih (bagInsert m p.1 n) e h

theorem searchNet_ne_invalidPfx (t : Transport) (base pfx : Str)
    (mode : Bool) : searchNet t base pfx mode ≠ .error .invalidPfx := by
  intro h
  unfold searchNet at h
  cases ht : t (buildSearchRequest base pfx mode) with
  | error e =>
    rw [ht] at h
    injection h with h'
    exact SearchErr.noConfusion h'
  | ok resp =>
    rw [ht] at h
    dsimp only at h
    by_cases hs : resp.statusCode ≠ 200
    · rw [if_pos hs] at h
      injection h with h'
      exact SearchErr.noConfusion h'
    · rw [if_neg hs] at h
      obtain ⟨l, hl⟩ := newBagLoop_error_malformed resp.body [] _ h
      exact SearchErr.noConfusion hl

theorem hexTable_getD_mem (i : Nat) : hexTable.getD i '0' ∈ hexTable := by
  by_cases h : i < 16
  · interval_cases i <;> decide
  · have hlen : hexTable.length ≤ i := by
      have h16 : hexTable.length = 16 := rfl
      omega
    rw [List.getD_eq_default _ _ hlen]
    decide

theorem mem_hexEncode_mem_table (bs : List Nat) (c : Char)
    (h : c ∈ hexEncode bs) : c ∈ hexTable := by
  simp only [hexEncode, List.mem_flatMap] at h
  obtain ⟨b, _, hc⟩ := h
  rcases List.mem_cons.1 hc with rfl | hc'
  · exact hexTable_getD_mem _
  · rcases List.mem_cons.1 hc' with rfl | hc''
    · exact hexTable_getD_mem _
    · simp at hc''

theorem asciiUpper_hex_all (bs : List Nat) :
    ∀ c ∈ asciiUpper (hexEncode bs), isHexDigit c = true := by
  intro c hc
  simp only [asciiUpper, List.mem_map] at hc
  obtain ⟨c0, hc0, rfl⟩ := hc
  have hmem := mem_hexEncode_mem_table bs c0 hc0
  fin_cases hmem <;> decide

theorem hexEncode_length (bs : List Nat) :
    (hexEncode bs).length = 2 * bs.length := by
  induction bs with
  | nil => rfl
  | cons b rest ih =>
    simp only [hexEncode, List.flatMap_cons] at ih ⊢
    simp only [List.length_append, List.length_cons, List.length_nil, ih]
    omega

theorem isValidPfx_take (u : Str) (h5 : 5 ≤ u.length)
    (hhex : ∀ c ∈ u, isHexDigit c = true) : isValidPfx (u.take 5) = true := by
  have hlen : (u.take 5).length = 5 := by
    simp only [List.length_take]
    omega
  simp only [isValidPfx, hlen, Bool.and_eq_true, decide_eq_true_eq,
    List.all_eq_true]
  exact ⟨trivial, fun c hc => hhex c (List.take_subset _ _ hc)⟩

end M

namespace M

/-- C1: For every byte string `s`, the legacy (NTLM) hash of `s` equals
the 16-byte MD4 digest of the expansion of `s` in which every byte `b` is
replaced by the two bytes `b, 0x00` in that order. -/
theorem ntlm_hash_is_md4_of_expansion (s : List Nat) :
    ntlmSum s = md4Digest (specExpand s) ∧ (ntlmSum s).length = 16 := by
  refine ⟨?_, ?_⟩
  · rw [ntlmSum_eq_streaming, ntlmExpand_eq]
  · rw [ntlmSum_eq_streaming]
    exact md4Digest_length _

/-- C7: Writing two pieces to the legacy hasher in order with no reset in
between and then finalizing yields the same 16-byte digest as writing
their concatenation in a single call: the digest is deterministic and
independent of chunking across writes. -/
theorem ntlm_digest_chunking_independent (a b : List Nat) :
    ntlmSumMeth (ntlmWrite (ntlmWrite ntlmNew a).1 b).1 [] =
      ntlmSumMeth (ntlmWrite ntlmNew (a ++ b)).1 [] ∧
    (ntlmSumMeth (ntlmWrite ntlmNew (a ++ b)).1 []).length = 16 := by
  refine ⟨?_, ?_⟩
  · simp [ntlmWrite, mdWrite, ntlmSumMeth, mdSum, ntlmNew, mdNew,
      ntlmExpand_append]
  · simp [ntlmSumMeth, mdSum, md4Digest_length]

set_option maxRecDepth 100000 in
/-- C8: The legacy hash of the empty string is the published digest
`31d6cfe0d16ae931b73c59d7e0c089c0`, and the legacy hash of the golden
test sentence is the published digest `6597cdc776287377fe8d206eda135438`. -/
theorem ntlm_known_answer_vectors :
    hexEncode (ntlmSum []) = "31d6cfe0d16ae931b73c59d7e0c089c0".toList ∧
    hexEncode (ntlmSum goldenSentence) =
      "6597cdc776287377fe8d206eda135438".toList := by
  refine ⟨by decide, by decide⟩

/-- C9 (code bug): `ntlm.Write` forwards the count returned by the MD4
hasher for the *doubled* buffer, so it reports `2 * len(p)` accepted
bytes instead of `len(p)`; the error is nil.  At the failing input
`p = [0x61]` the reported count is `2`, not `1`. -/
theorem ntlm_write_reports_doubled_count (n : Ntlm) (p : List Nat) :
    (ntlmWrite n p).2.1 = 2 * p.length ∧ (ntlmWrite n p).2.2 = none ∧
    (ntlmWrite ntlmNew [97]).2.1 = 2 := by
  refine ⟨?_, rfl, rfl⟩
  simp [ntlmWrite, mdWrite, ntlmExpand_length]

/-- C10: The one-shot `ntlm.Sum(data)` equals the digest obtained through
the streaming interface by `New()`, one `Write(data)`, then `Sum(nil)`. -/
theorem ntlm_oneshot_eq_streaming (data : List Nat) :
    ntlmSum data = ntlmSumMeth (ntlmWrite ntlmNew data).1 [] := by
  rw [ntlmSum_eq_streaming]
  simp [ntlmSumMeth, mdSum, ntlmWrite, mdWrite, ntlmNew, mdNew]

/-- C3 (amended): for every line-oriented input in which each line has
the form `SUFFIX:COUNT` with `COUNT` a non-negative base-10 integer *that
fits in a signed 64-bit integer*, the parser succeeds and the resulting
mapping is exactly the last-write-wins collection of the strictly
positive lines (zero-count padding lines are skipped); any line lacking
a colon, or with a non-integer count, or with a negative count makes the
parser fail with a malformed-response error and no partial mapping; the
empty input yields an empty mapping.  (The original claim, without the
64-bit bound, is refuted by `newBag_large_count_counterexample`.) -/
theorem newBag_parser_spec :
    (∀ lines : List Str, (∀ l ∈ lines, specGoodLine64 l) →
      ∃ b, newBag lines = .ok b ∧
        ∀ s, bagFind b s = lastAssoc (specEntries lines) s) ∧
    (∀ lines : List Str, (∃ l ∈ lines, specBadLine l) →
      ∃ l, newBag lines = .error (.malformed l)) ∧
    newBag [] = .ok [] := by
  refine ⟨?_, ?_, rfl⟩
  · intro lines h
    obtain ⟨b, hb, hfind⟩ := newBagLoop_good lines [] h
    refine ⟨b, hb, fun s => ?_⟩
    rw [hfind s]
    cases lastAssoc (specEntries lines) s <;> simp [bagFind]
  · intro lines h
    exact newBagLoop_bad lines [] h

/-- C3 counterexample: the line `A:9223372036854775808` has the form
`SUFFIX:COUNT` with a non-negative base-10 integer count, yet the parser
fails (the count exceeds `2^63 - 1`, so `strconv.Atoi` returns a range
error), contradicting the claim that such inputs always parse. -/
theorem newBag_large_count_counterexample :
    specGoodLine ("A:9223372036854775808".toList) ∧
    newBag ["A:9223372036854775808".toList] =
      .error (.malformed ("A:9223372036854775808".toList)) := by
  constructor
  · exact ⟨['A'], "9223372036854775808".toList,
      by decide, by decide, by decide, by decide⟩
  · rfl

/-- Witness for C3: a concrete good input (with a duplicate suffix and a
padding line) parsed via the theorem, and a concrete colon-free input
rejected via the theorem. -/
theorem newBag_parser_spec_witness :
    (∀ l ∈ ["A:2".toList, "A:3".toList, "B:0".toList], specGoodLine64 l) ∧
    (∃ b, newBag ["A:2".toList, "A:3".toList, "B:0".toList] = .ok b ∧
      ∀ s, bagFind b s =
        lastAssoc (specEntries ["A:2".toList, "A:3".toList, "B:0".toList]) s) ∧
    (∃ l, newBag ["X".toList] = .error (.malformed l)) := by
  have hgood : ∀ l ∈ ["A:2".toList, "A:3".toList, "B:0".toList],
      specGoodLine64 l := by
    intro l hl
    simp only [List.mem_cons, List.not_mem_nil, or_false] at hl
    rcases hl with rfl | rfl | rfl
    · exact ⟨['A'], ['2'], by decide, by decide, by decide, by decide,
        by decide⟩
    · exact ⟨['A'], ['3'], by decide, by decide, by decide, by decide,
        by decide⟩
    · exact ⟨['B'], ['0'], by decide, by decide, by decide, by decide,
        by decide⟩
  have hbad : ∃ l ∈ ["X".toList], specBadLine l :=
    ⟨"X".toList, by simp, Or.inl (by decide)⟩
  exact ⟨hgood, newBag_parser_spec.1 _ hgood, newBag_parser_spec.2.1 _ hbad⟩

/-- C6: A `pwnpass` range query with the legacy (NTLM) family issues
`GET <base>/range/<prefix>?mode=ntlm`; with the SHA-1 family no mode
indicator is attached. -/
theorem mode_indicator_spec (base pfx : Str) :
    (buildSearchRequest base pfx true).url =
      base ++ "/range/".toList ++ pfx ++ "?mode=ntlm".toList ∧
    (buildSearchRequest base pfx false).url =
      base ++ "/range/".toList ++ pfx ∧
    (buildSearchRequest base pfx true).method = "GET".toList ∧
    (buildSearchRequest base pfx false).method = "GET".toList := by
  refine ⟨by simp [buildSearchRequest], by simp [buildSearchRequest],
    rfl, rfl⟩

/-- C4 (amended): the `pwnpass` operations (`search`, and through it
`SearchSHA1` / `SearchNTLM`) accept exactly the strings matching
`[0-9A-Fa-f]` five times; every other string is rejected with the local
`ErrInvalidPrefix` before the transport is consulted, and the network
path never produces that error (so a rejection is never a remote
classification).  `hibp.Client.HashSuffixes`, however, performs no local
prefix validation: any prefix string whatsoever reaches the network (the
original claim, which extends validation to `HashSuffixes`, is refuted by
`hibp_no_local_validation_counterexample`). -/
theorem prefix_validation_spec :
    (∀ p : Str, isValidPfx p = true ↔
      (p.length = 5 ∧ ∀ c ∈ p,
        (('0' ≤ c ∧ c ≤ '9') ∨ ('A' ≤ c ∧ c ≤ 'F') ∨
         ('a' ≤ c ∧ c ≤ 'f')))) ∧
    (∀ (t : Transport) (base p : Str) (mode : Bool),
      isValidPfx p = false → search t base p mode = .error .invalidPfx) ∧
    (∀ (t : Transport) (base p : Str) (mode : Bool),
      isValidPfx p = true → search t base p mode = searchNet t base p mode) ∧
    (∀ (t : Transport) (base p : Str) (mode : Bool),
      searchNet t base p mode ≠ .error .invalidPfx) ∧
    (∀ (t : Transport) (base p : Str),
      searchSHA1 t base p = search t base p false ∧
      searchNTLM t base p = search t base p true) ∧
    (∀ (ppBase ua : Str) (req : HashSuffixesRequest),
      hibpHashSuffixes (fun _ => .ok ⟨200, [], []⟩) ppBase ua req =
        .ok []) := by
  refine ⟨?_, ?_, ?_, searchNet_ne_invalidPfx, fun t base p => ⟨rfl, rfl⟩,
    fun ppBase ua req => rfl⟩
  · intro p
    simp only [isValidPfx, isHexDigit, Bool.and_eq_true, decide_eq_true_eq,
      List.all_eq_true, Bool.or_eq_true]
    constructor
    · rintro ⟨h5, hall⟩
      exact ⟨h5, fun c hc => by have := hall c hc; tauto⟩
    · rintro ⟨h5, hall⟩
      exact ⟨h5, fun c hc => by have := hall c hc; tauto⟩
  · intro t base p mode h
    simp [search, h]
  · intro t base p mode h
    simp [search, h]

/-- C4 counterexample: `hibp.Client.HashSuffixes`, called with the empty
prefix (which fails the 5-hex-character format), does not fail with a
local invalid-prefix error: the request reaches the transport and, when
the transport answers 200 with an empty body, the call succeeds. -/
theorem hibp_no_local_validation_counterexample :
    isValidPfx [] = false ∧
    hibpHashSuffixes (fun _ => .ok ⟨200, [], []⟩) [] []
      ⟨[], 0, true⟩ = .ok [] :=
  ⟨rfl, rfl⟩

/-- Witness for C4: the invalid prefix `zzzzz` is rejected locally, and
the valid prefix `8846F` reaches the network path, via the theorem. -/
theorem prefix_validation_spec_witness :
    isValidPfx "zzzzz".toList = false ∧
    search (fun _ => .ok ⟨200, [], []⟩) [] "zzzzz".toList false =
      .error .invalidPfx ∧
    isValidPfx "8846F".toList = true ∧
    search (fun _ => .ok ⟨200, [], []⟩) [] "8846F".toList false =
      searchNet (fun _ => .ok ⟨200, [], []⟩) [] "8846F".toList false :=
  ⟨rfl, prefix_validation_spec.2.1 _ _ _ _ rfl, rfl,
    prefix_validation_spec.2.2.1 _ _ _ _ rfl⟩

/-- C5 (amended): whenever a range-query response has a non-success
status, the error returned is present and preserves the status code
verbatim.  In the `hibp` client the error carries a retry delay exactly
when the `Retry-After` header parses under `strconv.Atoi` as an integer
— negative values included, carried verbatim as a negative delay — and
the delay is absent otherwise; status 429 with header `30` yields status
429 with a 30-second (`30000000000` ns) delay.  In the `pwnpass` client
the error carries the status code only (never a delay). -/
theorem newError_spec :
    (∀ resp : GoResponse,
      (newError resp).statusCode = resp.statusCode ∧
      (∀ n, goAtoi (headerGet resp.headers "Retry-After".toList) = some n →
        (newError resp).retryAfter = some (intWrap64 (n * 1000000000))) ∧
      (goAtoi (headerGet resp.headers "Retry-After".toList) = none →
        (newError resp).retryAfter = none)) ∧
    (∀ (t : Transport) (ppBase ua : Str) (req : HashSuffixesRequest)
        (resp : GoResponse),
      t (hibpRequestOf ppBase ua req) = .ok resp → resp.statusCode ≠ 200 →
      hibpHashSuffixes t ppBase ua req = .error (.request (newError resp))) ∧
    (∀ (t : Transport) (base p : Str) (mode : Bool) (resp : GoResponse),
      isValidPfx p = true → t (buildSearchRequest base p mode) = .ok resp →
      resp.statusCode ≠ 200 →
      search t base p mode = .error (.badStatus resp.statusCode)) ∧
    newError ⟨429, [("Retry-After".toList, "30".toList)], []⟩ =
      ⟨429, some 30000000000⟩ := by
  refine ⟨?_, ?_, ?_, by rfl⟩
  · intro resp
    refine ⟨?_, ?_, ?_⟩
    · unfold newError
      cases goAtoi (headerGet resp.headers "Retry-After".toList) <;> rfl
    · intro n h
      unfold newError
      rw [h]
    · intro h
      unfold newError
      rw [h]
  · intro t ppBase ua req resp ht hs
    unfold hibpHashSuffixes
    rw [ht]
    exact if_neg hs
  · intro t base p mode resp hv ht hs
    unfold search searchNet
    rw [hv]
    show (match t (buildSearchRequest base p mode) with
      | .error e => Except.error (SearchErr.transport e)
      | .ok resp =>
        if resp.statusCode ≠ 200 then
          Except.error (SearchErr.badStatus resp.statusCode)
        else newBag resp.body) = _
    rw [ht]
    exact if_pos hs

/-- C5 counterexample: a `Retry-After` header of `-1` is present and
parses as an integer but not as a *non-negative* one, so the claim says
the delay must be absent — yet `newError` carries it (as minus one
second); and a `pwnpass` range query answered 429 with a `Retry-After`
header of `30` returns an error carrying the status code only, with no
delay at all, where the claim demands a 30-second delay. -/
theorem newError_negative_header_counterexample :
    (newError ⟨500, [("Retry-After".toList, "-1".toList)], []⟩).retryAfter =
      some (-1000000000) ∧
    search (fun _ => .ok ⟨429, [("Retry-After".toList, "30".toList)], []⟩)
      [] "8846F".toList false = .error (.badStatus 429) :=
  ⟨rfl, rfl⟩

/-- Witness for C5: the theorem applied to a concrete 503 response with
a parseable `Retry-After` header, to a concrete failing `HashSuffixes`
call, and to a concrete failing `pwnpass` query. -/
theorem newError_spec_witness :
    (newError ⟨503, [("Retry-After".toList, "7".toList)], []⟩).retryAfter =
      some (intWrap64 (7 * 1000000000)) ∧
    hibpHashSuffixes (fun _ => .ok ⟨503, [], []⟩) [] [] ⟨"8846F".toList, 0, true⟩ =
      .error (.request (newError ⟨503, [], []⟩)) ∧
    search (fun _ => .ok ⟨429, [], []⟩) [] "8846F".toList false =
      .error (.badStatus 429) :=
  ⟨(newError_spec.1 _).2.1 7 (by decide),
   newError_spec.2.1 _ _ _ _ _ rfl (by decide),
   newError_spec.2.2.1 (fun _ => .ok ⟨429, [], []⟩) [] ("8846F".toList)
     false ⟨429, [], []⟩ (by decide) rfl (by decide)⟩

/-- C2: `pwnpass.Client.IsPwnedPassword` coincides with the reference
algorithm of the specification, for every general-purpose hash function
producing 20-byte digests, every transport, every base URL and every
input: hash with SHA-1, uppercase-hex, split 5/35, query the SHA-1
family with padding; propagate query errors without attempting the
legacy check; answer true on a suffix hit without a second query;
otherwise NTLM-hash the same input and repeat with the legacy family;
false when neither suffix is found.  (The code's extra local prefix
validation never fires, because a hex-encoded prefix is always valid.) -/
theorem isPwnedPassword_refines_spec (sha1Fn : List Nat → List Nat)
    (t : Transport) (base : Str) (s : List Nat)
    (h20 : (sha1Fn s).length = 20) :
    isPwnedPassword sha1Fn t base s = specIsPwned sha1Fn t base s := by
  have hn16 : (ntlmSum s).length = 16 := by
    rw [ntlmSum_eq_streaming]
    exact md4Digest_length _
  have hv1 : isValidPfx ((asciiUpper (hexEncode (sha1Fn s))).take 5) = true := by
    apply isValidPfx_take
    · simp [asciiUpper, hexEncode_length, h20]
    · exact asciiUpper_hex_all _
  have hv2 : isValidPfx ((asciiUpper (hexEncode (ntlmSum s))).take 5) = true := by
    apply isValidPfx_take
    · simp [asciiUpper, hexEncode_length, hn16]
    · exact asciiUpper_hex_all _
  unfold isPwnedPassword specIsPwned searchSHA1 searchNTLM search
  dsimp only
  simp [hv1, hv2]

/-- Witness for C2: the theorem applied to a concrete 20-byte hash
function, a transport answering empty bodies, and the empty input. -/
theorem isPwnedPassword_refines_spec_witness :
    ((fun _ : List Nat => List.replicate 20 7) []).length = 20 ∧
    isPwnedPassword (fun _ => List.replicate 20 7)
        (fun _ => .ok ⟨200, [], []⟩) [] [] =
      specIsPwned (fun _ => List.replicate 20 7)
        (fun _ => .ok ⟨200, [], []⟩) [] [] :=
  ⟨by decide, isPwnedPassword_refines_spec _ _ _ _ (by decide)⟩

end M
